import Mathlib

/-!
Verification of the rank/select and compressed-suffix-array layer of the
sdsl-lite fork.  C++ sources are shallowly embedded: 64-bit words become
natural numbers smaller than `2 ^ 64` (with explicit `% 2 ^ 64` where the
C++ arithmetic can wrap), raw `uint64_t` arrays become `List Nat`, loops
become structural or fuel-based recursions, and functions that can fail or
diverge return `Option` or `Except`.
-/

/-! ## Word-level bit primitives

`bits::cnt`, `bits::lo_set` and `bits::map10` live in `bits.hpp`, which is
not part of this source subset; they are modelled from the spec.
-/

/-- Modelled from the spec: `bits::cnt` (missing `bits.hpp`) is the hardware
population count of a 64-bit word: the number of set bits among positions
`0..63`. -/
def cnt (w : Nat) : Nat := (List.range 64).countP (fun p => w.testBit p)

/-- Modelled from the spec: `bits::lo_set[k]` (missing `bits.hpp`) is the
64-bit mask whose `k` lowest bits are set. -/
def loSet (k : Nat) : Nat := 2 ^ k - 1

/-- Modelled from the spec: `bits::map10 x carry` (missing `bits.hpp`) marks
every position `p` of the word `x` at which an occurrence of the 2-bit
pattern `10` ends: bit `p` of the result is set iff bit `p` of `x` is `0`
and the preceding bit (bit `p-1` of `x`, or the 1-bit `carry` from the
previous word when `p = 0`) is `1`.  The predecessor bits of `x` are
`(x <<< 1) ||| carry`; the mask `(2^64 - 1) ^^^ x` keeps the positions
where `x` holds a `0` and truncates to 64 bits. -/
def map10 (x c : Nat) : Nat := ((x <<< 1) ||| c) &&& ((2 ^ 64 - 1) ^^^ x)

/-- `rank_support_trait<10,2>::word_rank(data, idx)` from `rank_support.hpp`:
moves to the word holding bit `idx` (`data + (idx >> 6)`), takes as carry
the final bit of the preceding word (`*(data-1) >> 63` when `idx > 63`,
else `0`), and popcounts the marked `10` occurrences below bit `idx % 64`
of that word (`bits::cnt(bits::map10(*data, carry) & bits::lo_set[idx & 0x3F])`). -/
def word_rank10 (words : List Nat) (idx : Nat) : Nat :=
  cnt (map10 (words.getD (idx / 64) 0)
        (if 63 < idx then (words.getD (idx / 64 - 1) 0) >>> 63 else 0)
      &&& loSet (idx % 64))

/-- Bit `p` of the bit sequence stored in the 64-bit words `words`. -/
def bitAt (words : List Nat) (p : Nat) : Bool :=
  (words.getD (p / 64) 0).testBit (p % 64)

/-- An occurrence of the 2-bit pattern `10` is registered at position `p`
iff bit `p` is `0` and bit `p - 1` is `1` (the bit before position `0` is
treated as `0`). -/
def pat10At (words : List Nat) (p : Nat) : Bool :=
  (decide (0 < p) && bitAt words (p - 1)) && !bitAt words p

/-- Number of `10`-occurrences registered in the half-open range `[a, b)`. -/
def count10 (words : List Nat) (a b : Nat) : Nat :=
  (List.range' a (b - a)).countP (pat10At words)

/-- Modelled from the spec: scan the bits of `w` upward from position `p`
for the `j`-th set bit ("pinpointing the exact bit offset" inside the
word); returns 64 if the word holds fewer than `j` set bits at or above
`p`.  The first argument counts the `64 - p` positions still to examine,
making the recursion structural. -/
def selGo (w : Nat) : Nat → Nat → Nat → Nat
  | 0, _, _ => 64
  | k + 1, p, j =>
    if w.testBit p then
      (if j ≤ 1 then p else selGo w k (p + 1) (j - 1))
    else selGo w k (p + 1) j

/-- Modelled from the spec: `bits::sel(w, j)`, the 0-based position of the
`j`-th (1-based) set bit of the 64-bit word `w`. -/
def sel (w j : Nat) : Nat := selGo w 64 0 j

/-- The word-by-word accumulation loop of `select_support_scan::select`:
at word `pos` with `sum` pattern occurrences seen strictly before it, the
loop advances while `sum + args < i` and otherwise finishes with
`(word_pos << 6) + ith_arg_pos_in_the_word(*data, i - sum_args, old_carry)`.
The fuel models the in-bounds assertion of the source; exhausting it
(reading past the last word) yields `none`. -/
def scanLoop (words : List Nat) (i : Nat) : Nat → Nat → Nat → Option Nat
  | 0, _, _ => none
  | fuel + 1, pos, sum =>
    if sum + cnt (words.getD pos 0) < i then
      scanLoop words i fuel (pos + 1) (sum + cnt (words.getD pos 0))
    else some (pos * 64 + sel (words.getD pos 0) (i - sum))

/-- `select_support_scan<1,1>::select(i)` from `select_support_scan.hpp`:
the first word is handled with `init_carry() = 0` and
`args_in_the_first_word` (for pattern `1`: the popcount of word 0 from
offset 0); if it already holds `i` occurrences the intra-word search
finishes there, otherwise the scan continues word by word from word 1. -/
def scanSelect (words : List Nat) (i : Nat) : Option Nat :=
  if i ≤ cnt (words.getD 0 0) then some (0 * 64 + sel (words.getD 0 0) i)
  else scanLoop words i words.length 1 (cnt (words.getD 0 0))

/-- Number of 1-bits of the sequence strictly below position `p`. -/
def onesBelow (words : List Nat) (p : Nat) : Nat :=
  (List.range p).countP (bitAt words)

/-- Total number of 1-bits of the sequence. -/
def onesTotal (words : List Nat) : Nat := onesBelow words (64 * words.length)

structure CSA where
  sa : List Nat
  isa : List Nat
  char2comp : Nat → Nat
  comp2char : List Nat
  C : List Nat
  sigma : Nat

/-- `csa_bitcompressed::size()`, the length of the stored suffix array. -/
def csize (csa : CSA) : Nat := csa.sa.length

/-- `csa_bitcompressed::operator[](i) = m_sa[i]`. -/
def saF (csa : CSA) (i : Nat) : Nat := csa.sa.getD i 0

/-- The stored inverse suffix array access `csa.isa[i]`. -/
def isaF (csa : CSA) (i : Nat) : Nat := csa.isa.getD i 0

/-- `traverse_csa_saisa_trait<t_csa, true>::access` from
`suffix_array_helper.hpp`: `psi[i] = csa.isa[(csa[i] + 1) % csa.size()]`. -/
def psiF (csa : CSA) (i : Nat) : Nat := isaF csa ((saF csa i + 1) % csize csa)

/-- `traverse_csa_saisa_trait<t_csa, false>::access` from
`suffix_array_helper.hpp`:
`lf[i] = csa.isa[(csa[i] + csa.size() - 1) % csa.size()]`. -/
def lfF (csa : CSA) (i : Nat) : Nat :=
  isaF csa ((saF csa i + csize csa - 1) % csize csa)

/-- The BWT as the claims define it: the text character at position
`(SA[j] + n - 1) mod n`. -/
def bwtF (csa : CSA) (text : List Nat) (j : Nat) : Nat :=
  text.getD ((saF csa j + csize csa - 1) % csize csa) 0

/-- Number of positions `j < i` whose BWT character is `c`. -/
def bwtCount (csa : CSA) (text : List Nat) (i c : Nat) : Nat :=
  ((Finset.range i).filter (fun j => bwtF csa text j = c)).card

/-- "`SA` is a permutation of `[0,n)` and `ISA` is its inverse
permutation": both arrays have length `n`, take values below `n`, and
compose to the identity in both orders. -/
def InversePerm (csa : CSA) : Prop :=
  csa.isa.length = csize csa ∧
    (∀ k, k < csize csa → saF csa k < csize csa) ∧
    (∀ k, k < csize csa → isaF csa k < csize csa) ∧
    (∀ k, k < csize csa → isaF csa (saF csa k) = k) ∧
    (∀ k, k < csize csa → saF csa (isaF csa k) = k)

/-- The example CSA for text `T = [1,1,0]` (sentinel `0` at the end) with
the true lexicographic suffix array `SA = [2,1,0]`, its inverse
`ISA = [2,1,0]`, effective alphabet `{0,1}` and `C = [0,1,3]`. -/
def csaEx : CSA :=
  { sa := [2, 1, 0]
    isa := [2, 1, 0]
    char2comp := fun c => if c = 1 then 1 else 0
    comp2char := [0, 1]
    C := [0, 1, 3]
    sigma := 2 }

/-- The text of `csaEx`. -/
def textEx : List Nat := [1, 1, 0]

/-- A CSA over the same text `[1,1,0]` whose stored arrays are mutually
inverse permutations and whose positions are grouped by first character,
but whose suffix array `[2,0,1]` is not lexicographically sorted. -/
def csaBad : CSA :=
  { sa := [2, 0, 1]
    isa := [1, 2, 0]
    char2comp := fun c => if c = 1 then 1 else 0
    comp2char := [0, 1]
    C := [0, 1, 3]
    sigma := 2 }

/-- The linear scan of `first_row_symbol` for small alphabets:
`while (res < sigma and C[res] <= i) ++res;`.  The fuel counts the at most
`sigma - res` remaining iterations, making the recursion structural. -/
def frsLinGo (C : List Nat) (sigma i : Nat) : Nat → Nat → Nat
  | 0, res => res
  | fuel + 1, res =>
    if res < sigma ∧ C.getD res 0 ≤ i then frsLinGo C sigma i fuel (res + 1) else res

/-- The binary-search do-while of `first_row_symbol` for large alphabets:
each round sets `res = (upper + lower) / 2`, then narrows to `upper = res`
when `i < C[res]`, to `lower = res + 1` when `i >= C[res+1]`, and exits
with `res` once `C[res] <= i < C[res+1]`.  The loop terminates only
because the interval keeps shrinking; exhausted fuel yields `none`. -/
def frsBinGo (C : List Nat) (i : Nat) : Nat → Nat → Nat → Option Nat
  | 0, _, _ => none
  | fuel + 1, lower, upper =>
    if i < C.getD ((upper + lower) / 2) 0 then
      frsBinGo C i fuel lower ((upper + lower) / 2)
    else if C.getD ((upper + lower) / 2 + 1) 0 ≤ i then
      frsBinGo C i fuel ((upper + lower) / 2 + 1) upper
    else some ((upper + lower) / 2)

/-- `first_row_symbol(i, csa)` from `suffix_array_helper.hpp`: a linear
scan over `C` starting at `res = 1` when `sigma < 16` (returning
`comp2char[res - 1]`), and otherwise the binary search on the interval
`[0, sigma)` (returning `comp2char[res]`). -/
def first_row_symbol (csa : CSA) (i : Nat) : Option Nat :=
  if csa.sigma < 16 then
    some (csa.comp2char.getD (frsLinGo csa.C csa.sigma i csa.sigma 1 - 1) 0)
  else
    (frsBinGo csa.C i (csa.sigma + 1) 0 csa.sigma).map (fun res => csa.comp2char.getD res 0)

/-- `traverse_csa_saisa::empty` as written in the source:
`return m_csa, empty();`.  The comma operator evaluates and discards
`m_csa`, then calls the unqualified `empty()`, which resolves to the
member function itself — every evaluation step is the same call again.
One fuel unit is consumed per self-invocation; no value is ever
produced. -/
def saisa_empty_steps : Nat → Option Bool
  | 0 => none
  | fuel + 1 => saisa_empty_steps fuel

/-- `csa_bitcompressed::empty()`: `m_sa.empty()`, i.e. whether the stored
suffix array has size 0. -/
def csa_empty (csa : CSA) : Bool := csize csa == 0

/-- The char-array overload `store_to_file(char const *, std::string const &)`:
its `return false` sits *inside* the `if (util::verbose)` block, so with
verbose off an open failure falls through to the write and `return true`. -/
def store_to_file_char (verbose opened : Bool) : Bool :=
  match (if !opened then (if verbose then some false else none) else none) with
  | some r => r
  | none => true

/-- The `std::string` overload of `store_to_file`, with the same nesting of
`return false` inside `if (util::verbose)` as the char-array overload. -/
def store_to_file_string (verbose opened : Bool) : Bool :=
  match (if !opened then (if verbose then some false else none) else none) with
  | some r => r
  | none => true

/-- The generic overload `store_to_file(T const &, std::string const &)`:
its `return false` stands after the verbose block, so every open failure
returns false. -/
def store_to_file_generic (verbose opened : Bool) : Bool :=
  if !opened then false else true

/-- The members of `vlc_vector` that its observable behaviour reads:
`m_z` (the encoded bit stream), `m_sample_pointer` and `m_size`. -/
structure VlcVector where
  z : List Bool
  sample_pointer : List Nat
  size : Nat

/-- `vlc_vector::operator==`:
`return m_size && v.m_size && m_z == v.m_z && m_sample_pointer == v.m_sample_pointer;`
— the sizes are tested for truthiness (non-zero), not for equality. -/
def vlcEq (u v : VlcVector) : Bool :=
  decide (u.size ≠ 0) && decide (v.size ≠ 0) && decide (u.z = v.z) &&
    decide (u.sample_pointer = v.sample_pointer)

/-- `vlc_vector::operator!=`: `!(*this == v)`. -/
def vlcNe (u v : VlcVector) : Bool := !vlcEq u v

/-- A default-constructed (empty) `vlc_vector`: `m_size = 0`, empty
stream and pointer vector. -/
def vlcEmpty : VlcVector := { z := [], sample_pointer := [], size := 0 }

/-- Phase (2) of the container constructor of `vlc_vector`: walk the
elements; every `dens` elements (`no_sample` countdown, hitting 0 first at
`i = 0`) the current stream length `z_size` is recorded as a sample
pointer; then `c[i] + 1` (in 64-bit arithmetic) is encoded at the end of
the stream.  `enc` is the self-delimiting code of the coder template
parameter, so `(enc x).length` is `t_coder::encoding_length(x)`.  Returns
the stream and the recorded sample pointers. -/
def vlcEncodeLoop (enc : Nat → List Bool) (dens : Nat) :
    List Nat → Nat → Nat → (List Bool × List Nat)
  | [], _, _ => ([], [])
  | x :: rest, no_sample, z_size =>
    if no_sample = 0 then
      ((enc ((x + 1) % 2 ^ 64) ++
          (vlcEncodeLoop enc dens rest (dens - 1) (z_size + (enc ((x + 1) % 2 ^ 64)).length)).1),
        z_size ::
          (vlcEncodeLoop enc dens rest (dens - 1) (z_size + (enc ((x + 1) % 2 ^ 64)).length)).2)
    else
      ((enc ((x + 1) % 2 ^ 64) ++
          (vlcEncodeLoop enc dens rest (no_sample - 1) (z_size + (enc ((x + 1) % 2 ^ 64)).length)).1),
        (vlcEncodeLoop enc dens rest (no_sample - 1) (z_size + (enc ((x + 1) % 2 ^ 64)).length)).2)

/-- The `vlc_vector(Container const &)` constructor: an empty container
yields the cleared (empty) vector; otherwise phase (1) walks all elements
and throws `std::logic_error` if any element `x` has `x + 1 == 0` in
64-bit arithmetic, before anything is encoded; only then does phase (2)
encode the stream and record the sample pointers (the last of the
`samples + 1` pointer slots is never written and stays 0), and `m_size`
becomes `c.size()`. -/
def vlcOfContainer (enc : Nat → List Bool) (dens : Nat) (c : List Nat) :
    Except String VlcVector :=
  if c = [] then Except.ok { z := [], sample_pointer := [], size := 0 }
  else if c.any (fun x => (x + 1) % 2 ^ 64 < 1) then
    Except.error "vlc_vector cannot decode values smaller than 1!"
  else
    Except.ok
      { z := (vlcEncodeLoop enc dens c 0 0).1
        sample_pointer := (vlcEncodeLoop enc dens c 0 0).2 ++ [0]
        size := c.length }

/-- The binary-search loop of `csa_bitcompressed::rank_bwt`:
`while (lower_b + 1 < upper_b) { mid = (lower_b+upper_b)/2; if (psi[mid] >= i)
upper_b = mid; else lower_b = mid; }` and the final `lower_b`.  Each round
strictly shrinks `upper - lower`, so `upper - lower` fuel units always
suffice; the fuel only makes that termination measure explicit. -/
def rbGo (psi : Nat → Nat) (i : Nat) : Nat → Nat → Nat → Nat
  | 0, lower, _ => lower
  | fuel + 1, lower, upper =>
    if lower + 1 < upper then
      if i ≤ psi ((lower + upper) / 2) then rbGo psi i fuel lower ((lower + upper) / 2)
      else rbGo psi i fuel ((lower + upper) / 2) upper
    else lower

/-- The `rank_bwt` search started with its full fuel `upper - lower`. -/
def rbLoop (psi : Nat → Nat) (i lower upper : Nat) : Nat :=
  rbGo psi i (upper - lower) lower upper

/-- `csa_bitcompressed::rank_bwt(i, c)`: `cc = char2comp[c]`; if `cc == 0`
and `c != 0` the character does not occur and the result is 0; otherwise
binary-search the bucket `[C[cc], C[cc+1])` of the Ψ function and return
`lower_b - C[cc] + 1` when `lower_b > C[cc]`, else `psi[lower_b] < i`
(as 1 or 0). -/
def rank_bwt (csa : CSA) (i c : Nat) : Nat :=
  if csa.char2comp c = 0 ∧ c ≠ 0 then 0
  else if csa.C.getD (csa.char2comp c) 0 <
      rbLoop (psiF csa) i (csa.C.getD (csa.char2comp c) 0) (csa.C.getD (csa.char2comp c + 1) 0) then
    rbLoop (psiF csa) i (csa.C.getD (csa.char2comp c) 0) (csa.C.getD (csa.char2comp c + 1) 0)
      - csa.C.getD (csa.char2comp c) 0 + 1
  else if psiF csa (rbLoop (psiF csa) i (csa.C.getD (csa.char2comp c) 0)
      (csa.C.getD (csa.char2comp c + 1) 0)) < i then 1
  else 0

/-- `csa_bitcompressed::select_bwt(i, c)`: `cc = char2comp[c]`; if `cc == 0`
and `c != 0` return `size()`; else if `C[cc] + i - 1 < C[cc+1]` (the index
expression evaluated in wrapping 64-bit arithmetic) return
`psi[C[cc] + i - 1]`, else `size()`. -/
def select_bwt (csa : CSA) (i c : Nat) : Nat :=
  if csa.char2comp c = 0 ∧ c ≠ 0 then csize csa
  else if (csa.C.getD (csa.char2comp c) 0 + i + (2 ^ 64 - 1)) % 2 ^ 64 <
      csa.C.getD (csa.char2comp c + 1) 0 then
    psiF csa ((csa.C.getD (csa.char2comp c) 0 + i + (2 ^ 64 - 1)) % 2 ^ 64)
  else csize csa

/-- The reading of "SA/ISA are mutually inverse permutations and the
alphabet tables (`char2comp`, `C`) are correctly built from the text":
the text has length `n`; SA/ISA are mutually inverse permutations of
`[0, n)`; `char2comp[0] = 0`; `C` is non-decreasing with `C[0] = 0` and
`C[sigma] = n`; the text contains the sentinel 0; a non-sentinel
character absent from the text is mapped to compacted index 0; an
occurring character is mapped below `sigma`; and position `k` of the
suffix array lies in character `c`'s bucket `[C[char2comp c],
C[char2comp c + 1])` exactly when the suffix starting at `SA[k]` begins
with `c`. -/
def Correct (csa : CSA) (text : List Nat) : Prop :=
  text.length = csize csa ∧
    InversePerm csa ∧
    csa.char2comp 0 = 0 ∧
    (∀ a, a < csa.sigma → csa.C.getD a 0 ≤ csa.C.getD (a + 1) 0) ∧
    csa.C.getD 0 0 = 0 ∧
    csa.C.getD csa.sigma 0 = csize csa ∧
    0 ∈ text ∧
    (∀ c, c ≠ 0 → c ∉ text → csa.char2comp c = 0) ∧
    (∀ c, c ∈ text → csa.char2comp c < csa.sigma) ∧
    (∀ c, c ∈ text → ∀ k, k < csize csa →
      (text.getD (saF csa k) 0 = c ↔
        csa.C.getD (csa.char2comp c) 0 ≤ k ∧ k < csa.C.getD (csa.char2comp c + 1) 0))

/-- Ψ is strictly increasing inside every character bucket
`[C[j], C[j+1])`, `j < sigma` — the property of a lexicographically
sorted suffix array that the binary searches of `rank_bwt` and
`select_bwt` rely on. -/
def PsiMonoOnBuckets (csa : CSA) : Prop :=
  ∀ j, j < csa.sigma → ∀ a b, csa.C.getD j 0 ≤ a → a < b →
    b < csa.C.getD (j + 1) 0 → psiF csa a < psiF csa b

/-- A CSA with a 16-symbol alphabet (unit-size buckets, `C[j] = j`) used
to exercise the binary-search branch of `first_row_symbol`. -/
def csaWide : CSA :=
  { sa := List.range 16
    isa := []
    char2comp := fun c => c
    comp2char := List.range 16
    C := List.range 17
    sigma := 16 }

lemma testBit_high (w a : Nat) (h : w < 2 ^ 64) (h2 : 64 ≤ a) : w.testBit a = false := by
  apply Nat.testBit_lt_two_pow
  calc w < 2 ^ 64 := h
    _ ≤ 2 ^ a := Nat.pow_le_pow_right (by norm_num) h2

lemma shiftRight63_eq_one_iff (w : Nat) (h : w < 2 ^ 64) :
    (w >>> 63 = 1) ↔ w.testBit 63 = true := by
  rw [Nat.testBit_to_div_mod, Nat.shiftRight_eq_div_pow, decide_eq_true_eq]
  have h64 : (2 : Nat) ^ 64 = 2 ^ 63 * 2 := by norm_num
  rw [h64] at h
  omega

lemma shiftRight63_le_one (w : Nat) (h : w < 2 ^ 64) : w >>> 63 ≤ 1 := by
  rw [Nat.shiftRight_eq_div_pow]
  have h64 : (2 : Nat) ^ 64 = 2 ^ 63 * 2 := by norm_num
  rw [h64] at h
  omega

lemma testBit_map10 (x c p : Nat) (hc : c ≤ 1) (hp : p < 64) :
    (map10 x c).testBit p =
      ((if p = 0 then decide (c = 1) else x.testBit (p - 1)) && !x.testBit p) := by
  have hxor : ((2 ^ 64 - 1) ^^^ x).testBit p = !x.testBit p := by
    rw [Nat.testBit_xor, Nat.testBit_two_pow_sub_one]
    simp [hp]
  rw [map10, Nat.testBit_and, hxor, Nat.testBit_or, Nat.testBit_shiftLeft]
  rcases Nat.eq_zero_or_pos p with hp0 | hp0
  · subst hp0
    have hc0 : c.testBit 0 = decide (c = 1) := by interval_cases c <;> decide
    simp [hc0]
  · have h1 : decide (1 ≤ p) = true := by simp only [decide_eq_true_eq]; omega
    have hcp : c.testBit p = false := by
      apply Nat.testBit_lt_two_pow
      calc c < 2 := by omega
        _ ≤ 2 ^ p := by
            have h2 : 2 ^ 1 ≤ 2 ^ p := Nat.pow_le_pow_right (by norm_num) hp0
            simpa using h2
    have hne : p ≠ 0 := Nat.pos_iff_ne_zero.mp hp0
    simp [h1, hcp, hne]

lemma countP_range_cutoff (f : Nat → Bool) (r m : Nat) (h : r ≤ m) :
    (List.range m).countP (fun p => f p && decide (p < r)) = (List.range r).countP f := by
  have hm : m = r + (m - r) := by omega
  rw [hm, List.range_add, List.countP_append, List.countP_map]
  have h1 : (List.range r).countP (fun p => f p && decide (p < r)) =
      (List.range r).countP f := by
    apply List.countP_congr
    intro a ha
    have : a < r := List.mem_range.mp ha
    simp [this]
  have h2 : (List.range (m - r)).countP ((fun p => f p && decide (p < r)) ∘ (fun x => r + x)) = 0 := by
    apply List.countP_eq_zero.mpr
    intro a _
    simp
  rw [h1, h2]
  omega

lemma countP_range'_eq (g : Nat → Bool) (s n : Nat) :
    (List.range' s n).countP g = (List.range n).countP (fun p => g (s + p)) := by
  have h : List.range' s n = (List.range n).map (fun x => s + x) := by
    simp [List.range'_eq_map_range]
  rw [h, List.countP_map]
  rfl

/-- **C6.** For a bit sequence stored in 64-bit words and any index
`idx ≤ 64 * words.length`, `rank_support_trait<10,2>::word_rank(data, idx)`
equals the number of occurrences of the 2-bit pattern `10` registered
within bits `[64 * (idx / 64), idx)` of the sequence: an occurrence
straddling the preceding word boundary is accounted for by the 1-bit carry
taken from the preceding word's final bit, and in the first word
(`idx ≤ 63`) the carry is `0`, i.e. the bit before position `0` is treated
as `0`, matching `init_carry() == 0`. -/
theorem word_rank10_correct (words : List Nat) (idx : Nat)
    (hw : ∀ w ∈ words, w < 2 ^ 64) (hidx : idx ≤ 64 * words.length) :
    word_rank10 words idx = count10 words (64 * (idx / 64)) idx := by
  unfold word_rank10
  set q := idx / 64 with hq
  set r := idx % 64 with hr
  have hqr : idx = 64 * q + r := by rw [hq, hr]; omega
  have hr64 : r < 64 := by rw [hr]; omega
  rcases Nat.eq_zero_or_pos r with hr0 | hr0
  · -- empty intra-word range: the mask is 0 on both sides
    have hcount : count10 words (64 * q) idx = 0 := by
      unfold count10
      have h0 : idx - 64 * q = 0 := by omega
      rw [h0]
      rfl
    rw [hcount, hr0]
    have hls : loSet 0 = 0 := rfl
    rw [hls, Nat.and_zero]
    rfl
  · -- main case: 1 ≤ r, so the word index q is inside the list
    have hqlen : q < words.length := by omega
    have hwq : words.getD q 0 < 2 ^ 64 := by
      rw [List.getD_eq_getElem words 0 hqlen]
      exact hw _ (List.getElem_mem hqlen)
    set w := words.getD q 0 with hww
    set carry := if 63 < idx then (words.getD (q - 1) 0) >>> 63 else 0 with hcarry
    have hq1len : q - 1 < words.length := by omega
    have hu : words.getD (q - 1) 0 < 2 ^ 64 := by
      rw [List.getD_eq_getElem words 0 hq1len]
      exact hw _ (List.getElem_mem hq1len)
    have hcle : carry ≤ 1 := by
      rw [hcarry]
      split
      · exact shiftRight63_le_one _ hu
      · exact Nat.zero_le 1
    -- left side: popcount of the masked word as a countP over bit positions
    have lhs_eq : cnt (map10 w carry &&& loSet r) =
        (List.range r).countP (fun p => (map10 w carry).testBit p) := by
      unfold cnt
      have hstep : (List.range 64).countP (fun p => (map10 w carry &&& loSet r).testBit p) =
          (List.range 64).countP (fun p => (map10 w carry).testBit p && decide (p < r)) := by
        apply List.countP_congr
        intro a _
        simp only [Nat.testBit_and, loSet, Nat.testBit_two_pow_sub_one]
      rw [hstep]
      exact countP_range_cutoff _ _ _ (le_of_lt hr64)
    rw [lhs_eq]
    -- right side as a countP over the same range of offsets
    have rhs_eq : count10 words (64 * q) idx =
        (List.range r).countP (fun p => pat10At words (64 * q + p)) := by
      unfold count10
      have hsub : idx - 64 * q = r := by omega
      rw [hsub]
      exact countP_range'_eq _ _ _
    rw [rhs_eq]
    -- pointwise agreement of the two predicates on offsets p < r
    apply List.countP_congr
    intro p hp
    have hpr : p < r := List.mem_range.mp hp
    have hp64 : p < 64 := lt_trans hpr hr64
    rw [testBit_map10 w carry p hcle hp64]
    have hcur : bitAt words (64 * q + p) = w.testBit p := by
      unfold bitAt
      have hdiv : (64 * q + p) / 64 = q := by omega
      have hmod : (64 * q + p) % 64 = p := by omega
      rw [hdiv, hmod, ← hww]
    rcases Nat.eq_zero_or_pos p with hp0 | hp0
    · subst hp0
      rcases Nat.eq_zero_or_pos q with hq0 | hq0
      · -- first word: no preceding word, carry is 0
        have hidx63 : ¬ 63 < idx := by omega
        have hc0 : carry = 0 := by rw [hcarry, if_neg hidx63]
        rw [if_pos rfl, hc0]
        unfold pat10At
        rw [hq0]
        simp
      · -- word boundary: the previous bit is bit 63 of word q - 1
        have hidx63 : 63 < idx := by omega
        have hcval : carry = (words.getD (q - 1) 0) >>> 63 := by
          rw [hcarry, if_pos hidx63]
        have hprev : bitAt words (64 * q + 0 - 1) = (words.getD (q - 1) 0).testBit 63 := by
          unfold bitAt
          have hd : (64 * q + 0 - 1) / 64 = q - 1 := by omega
          have hm : (64 * q + 0 - 1) % 64 = 63 := by omega
          rw [hd, hm]
        have hdec : decide (carry = 1) = (words.getD (q - 1) 0).testBit 63 := by
          rw [hcval]
          cases hx : (words.getD (q - 1) 0).testBit 63 with
          | true =>
              have h1 : words.getD (q - 1) 0 >>> 63 = 1 := (shiftRight63_eq_one_iff _ hu).mpr hx
              rw [h1]
              simp
          | false =>
              have h1 : words.getD (q - 1) 0 >>> 63 ≠ 1 := by
                intro hcon
                rw [(shiftRight63_eq_one_iff _ hu).mp hcon] at hx
                exact Bool.noConfusion hx
              exact decide_eq_false h1
        rw [if_pos rfl, hdec]
        unfold pat10At
        have h01 : decide (0 < 64 * q + 0) = true := by
          simp only [decide_eq_true_eq]; omega
        rw [h01, hprev, hcur, Bool.true_and]
    · unfold pat10At
      have h1 : 0 < 64 * q + p := by omega
      have hprev : bitAt words (64 * q + p - 1) = w.testBit (p - 1) := by
        unfold bitAt
        have hpd : (64 * q + p - 1) / 64 = q := by omega
        have hpm : (64 * q + p - 1) % 64 = p - 1 := by omega
        rw [hpd, hpm, ← hww]
      have hne : p ≠ 0 := Nat.pos_iff_ne_zero.mp hp0
      simp [h1, hprev, hcur, hne]

/-- Witness for C6 at a concrete two-word sequence: the single `10`
occurrence of the queried range straddles the word boundary, ending at
position 64 (bit 63 of the first word is `1`, bit 0 of the second is `0`). -/
theorem word_rank10_correct_witness :
    (∀ w ∈ ([2 ^ 63, 6] : List Nat), w < 2 ^ 64) ∧
      (65 ≤ 64 * ([2 ^ 63, 6] : List Nat).length) ∧
      word_rank10 [2 ^ 63, 6] 65 = count10 [2 ^ 63, 6] (64 * (65 / 64)) 65 ∧
      count10 [2 ^ 63, 6] (64 * (65 / 64)) 65 = 1 := by
  have h1 : ∀ w ∈ ([2 ^ 63, 6] : List Nat), w < 2 ^ 64 := by decide
  have h2 : (65 : Nat) ≤ 64 * ([2 ^ 63, 6] : List Nat).length := by decide
  exact ⟨h1, h2, word_rank10_correct _ _ h1 h2, by decide⟩

/-! ## Linear-scan select support (`select_support_scan<1,1>`)

`select_support_trait<1,1>` lives in `select_support.hpp`, which is not
part of this source subset; its operations are modelled from the spec.
For the 1-bit pattern `1` the trait's carry parameters are irrelevant:
`init_carry()` is `0`, `args_in_the_word` is the popcount `cnt` and leaves
the carry untouched, and `ith_arg_pos_in_the_word` locates the i-th set
bit of the word. -/

lemma range'_cons (p m : Nat) : List.range' p (m + 1) = p :: List.range' (p + 1) m := rfl

lemma countP_cons_true {f : Nat → Bool} {a : Nat} {l : List Nat} (h : f a = true) :
    (a :: l).countP f = l.countP f + 1 := by
  rw [List.countP_cons, h]
  simp

lemma countP_cons_false {f : Nat → Bool} {a : Nat} {l : List Nat} (h : f a = false) :
    (a :: l).countP f = l.countP f := by
  rw [List.countP_cons, h]
  simp

lemma selGo_spec (w : Nat) :
    ∀ k p j, 64 - p = k → 1 ≤ j →
      j ≤ (List.range' p (64 - p)).countP (fun t => w.testBit t) →
      selGo w k p j < 64 ∧ p ≤ selGo w k p j ∧ w.testBit (selGo w k p j) = true ∧
        (List.range' p (selGo w k p j - p)).countP (fun t => w.testBit t) = j - 1 := by
  intro k
  induction k with
  | zero =>
      intro p j hk hj hcount
      exfalso
      rw [Nat.sub_eq_zero_of_le (by omega : (64:Nat) ≤ p)] at hcount
      simp at hcount
      omega
  | succ k ih =>
      intro p j hk hj hcount
      have hp : p < 64 := by omega
      have hsplit : List.range' p (64 - p) = p :: List.range' (p + 1) (64 - (p + 1)) := by
        have h64 : 64 - p = (64 - (p + 1)) + 1 := by omega
        rw [h64, range'_cons]
      have hstep : selGo w (k + 1) p j =
          if w.testBit p then (if j ≤ 1 then p else selGo w k (p + 1) (j - 1))
          else selGo w k (p + 1) j := rfl
      cases hb : w.testBit p with
      | true =>
          by_cases hj1 : j ≤ 1
          · have hval : selGo w (k + 1) p j = p := by
              rw [hstep, hb]
              simp [hj1]
            have hj' : j = 1 := by omega
            rw [hval]
            refine ⟨hp, le_refl p, hb, ?_⟩
            rw [Nat.sub_self]
            simp [hj']
          · have hval : selGo w (k + 1) p j = selGo w k (p + 1) (j - 1) := by
              rw [hstep, hb]
              simp [hj1]
            have hcount2 : j ≤ (List.range' (p + 1) (64 - (p + 1))).countP (fun t => w.testBit t) + 1 := by
              rw [hsplit, countP_cons_true hb] at hcount
              exact hcount
            have hcount' : j - 1 ≤ (List.range' (p + 1) (64 - (p + 1))).countP (fun t => w.testBit t) := by
              omega
            obtain ⟨hlt, hle, hbit, hcnt⟩ := ih (p + 1) (j - 1) (by omega) (by omega) hcount'
            rw [hval]
            set q := selGo w k (p + 1) (j - 1) with hqd
            refine ⟨hlt, by omega, hbit, ?_⟩
            have hqp : q - p = (q - (p + 1)) + 1 := by omega
            rw [hqp, range'_cons, countP_cons_true hb, hcnt]
            omega
      | false =>
          have hval : selGo w (k + 1) p j = selGo w k (p + 1) j := by
            rw [hstep, hb]
            simp
          have hcount' : j ≤ (List.range' (p + 1) (64 - (p + 1))).countP (fun t => w.testBit t) := by
            rw [hsplit, countP_cons_false hb] at hcount
            exact hcount
          obtain ⟨hlt, hle, hbit, hcnt⟩ := ih (p + 1) j (by omega) hj hcount'
          rw [hval]
          set q := selGo w k (p + 1) j with hqd
          refine ⟨hlt, by omega, hbit, ?_⟩
          have hqp : q - p = (q - (p + 1)) + 1 := by omega
          rw [hqp, range'_cons, countP_cons_false hb, hcnt]

lemma sel_spec (w j : Nat) (hj : 1 ≤ j) (hcnt : j ≤ cnt w) :
    sel w j < 64 ∧ w.testBit (sel w j) = true ∧
      (List.range (sel w j)).countP (fun t => w.testBit t) = j - 1 := by
  have hr : ∀ m, List.range m = List.range' 0 m := fun m => List.range_eq_range' m
  have hc : j ≤ (List.range' 0 (64 - 0)).countP (fun t => w.testBit t) := by
    rw [← hr]
    simpa [cnt] using hcnt
  obtain ⟨hlt, _, hbit, hcount⟩ := selGo_spec w (64 - 0) 0 j rfl hj hc
  refine ⟨hlt, hbit, ?_⟩
  rw [hr]
  simpa using hcount

lemma onesBelow_word_split (words : List Nat) (q t : Nat) (ht : t ≤ 64) :
    onesBelow words (64 * q + t) =
      onesBelow words (64 * q) + (List.range t).countP (fun s => (words.getD q 0).testBit s) := by
  unfold onesBelow
  rw [List.range_add, List.countP_append, List.countP_map]
  congr 1
  apply List.countP_congr
  intro s hs
  have hst : s < t := List.mem_range.mp hs
  have hdiv : (64 * q + s) / 64 = q := by omega
  have hmod : (64 * q + s) % 64 = s := by omega
  simp only [Function.comp, bitAt, hdiv, hmod]

lemma onesBelow_succ_word (words : List Nat) (q : Nat) :
    onesBelow words (64 * (q + 1)) = onesBelow words (64 * q) + cnt (words.getD q 0) := by
  have h : 64 * (q + 1) = 64 * q + 64 := by omega
  rw [h, onesBelow_word_split words q 64 (le_refl 64)]
  rfl

lemma onesBelow_mono (words : List Nat) (a b : Nat) (h : a ≤ b) :
    onesBelow words a ≤ onesBelow words b := by
  unfold onesBelow
  have hb : b = a + (b - a) := by omega
  rw [hb, List.range_add, List.countP_append]
  omega

lemma scanLoop_spec (words : List Nat) (i : Nat) :
    ∀ fuel pos sum,
      sum = onesBelow words (64 * pos) →
      sum < i →
      i ≤ onesTotal words →
      words.length ≤ fuel + pos →
      ∃ p, scanLoop words i fuel pos sum = some p ∧
        bitAt words p = true ∧ onesBelow words p = i - 1 := by
  intro fuel
  induction fuel with
  | zero =>
      intro pos sum hsum hlt htot hlen
      exfalso
      have h1 : onesTotal words ≤ onesBelow words (64 * pos) := by
        unfold onesTotal
        exact onesBelow_mono words _ _ (by omega)
      omega
  | succ fuel ih =>
      intro pos sum hsum hlt htot hlen
      rw [scanLoop]
      by_cases hcase : sum + cnt (words.getD pos 0) < i
      · rw [if_pos hcase]
        apply ih (pos + 1) (sum + cnt (words.getD pos 0))
        · rw [hsum, onesBelow_succ_word]
        · exact hcase
        · exact htot
        · omega
      · rw [if_neg hcase]
        set w := words.getD pos 0 with hwd
        have hj1 : 1 ≤ i - sum := by omega
        have hj2 : i - sum ≤ cnt w := by omega
        obtain ⟨hlt64, hbit, hcount⟩ := sel_spec w (i - sum) hj1 hj2
        set t := sel w (i - sum) with htd
        refine ⟨pos * 64 + t, rfl, ?_, ?_⟩
        · unfold bitAt
          have hdiv : (pos * 64 + t) / 64 = pos := by omega
          have hmod : (pos * 64 + t) % 64 = t := by omega
          rw [hdiv, hmod, ← hwd, hbit]
        · have hpt : pos * 64 + t = 64 * pos + t := by omega
          rw [hpt, onesBelow_word_split words pos t (le_of_lt hlt64), ← hwd, hcount, ← hsum]
          omega

/-- **C3.** For every bit sequence stored in 64-bit words that contains at
least `i` one-bits (`i ≥ 1`), `select_support_scan<1,1>::select(i)`
terminates and returns the 0-based position `p` of the `i`-th one-bit:
bit `p` is set and exactly `i - 1` one-bits lie strictly below `p`.  The
first word is processed without a carry from a non-existent preceding
word, and the scan stops on the exact word containing the `i`-th
occurrence before the intra-word search. -/
theorem scanSelect_correct (words : List Nat) (i : Nat)
    (h1 : 1 ≤ i) (h2 : i ≤ onesTotal words) :
    ∃ p, scanSelect words i = some p ∧ bitAt words p = true ∧
      onesBelow words p = i - 1 := by
  unfold scanSelect
  by_cases hfirst : i ≤ cnt (words.getD 0 0)
  · rw [if_pos hfirst]
    set w := words.getD 0 0 with hwd
    obtain ⟨hlt64, hbit, hcount⟩ := sel_spec w i h1 hfirst
    set t := sel w i with htd
    refine ⟨0 * 64 + t, rfl, ?_, ?_⟩
    · unfold bitAt
      have hdiv : (0 * 64 + t) / 64 = 0 := by omega
      have hmod : (0 * 64 + t) % 64 = t := by omega
      rw [hdiv, hmod, ← hwd, hbit]
    · have h0t : 0 * 64 + t = 64 * 0 + t := by omega
      rw [h0t, onesBelow_word_split words 0 t (le_of_lt hlt64), ← hwd, hcount]
      have hz : onesBelow words (64 * 0) = 0 := rfl
      rw [hz]
      omega
  · rw [if_neg hfirst]
    apply scanLoop_spec words i words.length 1 (cnt (words.getD 0 0))
    · have h64 : (64 : Nat) * 1 = 64 * (0 + 1) := by omega
      rw [h64, onesBelow_succ_word]
      have hz : onesBelow words (64 * 0) = 0 := by simp [onesBelow]
      rw [hz]
      omega
    · omega
    · exact h2
    · omega

/-- Witness for C3: in `[10, 3]` (bits 1, 3, 64, 65 are set), the third
one-bit sits at position 64, found by the word-by-word scan. -/
theorem scanSelect_correct_witness :
    (1 ≤ 3 ∧ 3 ≤ onesTotal [10, 3]) ∧
      (∃ p, scanSelect [10, 3] 3 = some p ∧ bitAt [10, 3] p = true ∧
        onesBelow [10, 3] p = 3 - 1) ∧
      scanSelect [10, 3] 3 = some 64 := by
  refine ⟨⟨by decide, by decide⟩, scanSelect_correct [10, 3] 3 (by decide) (by decide), by decide⟩

/-! ## The bit-compressed CSA (`csa_bitcompressed`) and its Ψ/LF views

`csa_bitcompressed` stores the suffix array (`m_sa`), the inverse suffix
array (`m_isa`) and the alphabet tables (`char2comp`, `comp2char`, `C`,
`sigma`); both sampling densities are 1, so the stored vectors hold every
value.  `operator[](i)` returns `m_sa[i]` directly. -/

lemma psiF_lt (csa : CSA) (h : InversePerm csa) (i : Nat) (hi : i < csize csa) :
    psiF csa i < csize csa := by
  obtain ⟨-, hsa, hisa, -, -⟩ := h
  have hn : 0 < csize csa := lt_of_le_of_lt (Nat.zero_le i) hi
  exact hisa _ (Nat.mod_lt _ hn)

lemma lfF_lt (csa : CSA) (h : InversePerm csa) (i : Nat) (hi : i < csize csa) :
    lfF csa i < csize csa := by
  obtain ⟨-, hsa, hisa, -, -⟩ := h
  have hn : 0 < csize csa := lt_of_le_of_lt (Nat.zero_le i) hi
  exact hisa _ (Nat.mod_lt _ hn)

lemma lf_psi_eq (csa : CSA) (h : InversePerm csa) (i : Nat) (hi : i < csize csa) :
    lfF csa (psiF csa i) = i := by
  obtain ⟨hlen, hsa, hisa, hinv1, hinv2⟩ := h
  set n := csize csa with hnd
  have hn : 0 < n := lt_of_le_of_lt (Nat.zero_le i) hi
  set s := saF csa i with hsd
  have hs : s < n := hsa i hi
  have h1 : (s + 1) % n < n := Nat.mod_lt _ hn
  unfold lfF psiF
  rw [← hnd, ← hsd]
  rw [hinv2 _ h1]
  have e1 : (s + 1) % n + n - 1 = (s + 1) % n + (n - 1) := by omega
  rw [e1, Nat.mod_add_mod]
  have e2 : s + 1 + (n - 1) = s + n := by omega
  rw [e2, Nat.add_mod_right, Nat.mod_eq_of_lt hs]
  exact hinv1 i hi

lemma psi_lf_eq (csa : CSA) (h : InversePerm csa) (i : Nat) (hi : i < csize csa) :
    psiF csa (lfF csa i) = i := by
  obtain ⟨hlen, hsa, hisa, hinv1, hinv2⟩ := h
  set n := csize csa with hnd
  have hn : 0 < n := lt_of_le_of_lt (Nat.zero_le i) hi
  set s := saF csa i with hsd
  have hs : s < n := hsa i hi
  have h1 : (s + n - 1) % n < n := Nat.mod_lt _ hn
  unfold psiF lfF
  rw [← hnd, ← hsd]
  rw [hinv2 _ h1]
  have e1 : s + n - 1 = s + (n - 1) := by omega
  rw [e1, Nat.mod_add_mod]
  have e2 : s + (n - 1) + 1 = s + n := by omega
  rw [e2, Nat.add_mod_right, Nat.mod_eq_of_lt hs]
  exact hinv1 i hi

/-- **C1.** For every `csa_bitcompressed` whose stored SA is a permutation
of `[0,n)` with stored inverse ISA, and every `i < n`:
`lf[psi[i]] = i` and `psi[lf[i]] = i`, where
`psi[i] = isa[(sa[i]+1) mod n]` and `lf[i] = isa[(sa[i]+n-1) mod n]`. -/
theorem psi_lf_mutual_inverse (csa : CSA) (h : InversePerm csa) (i : Nat)
    (hi : i < csize csa) :
    lfF csa (psiF csa i) = i ∧ psiF csa (lfF csa i) = i :=
  ⟨lf_psi_eq csa h i hi, psi_lf_eq csa h i hi⟩

/-- Witness for C1 at `csaEx`, `i = 1`. -/
theorem psi_lf_mutual_inverse_witness :
    InversePerm csaEx ∧ 1 < csize csaEx ∧
      (lfF csaEx (psiF csaEx 1) = 1 ∧ psiF csaEx (lfF csaEx 1) = 1) := by
  have h : InversePerm csaEx := by
    refine ⟨rfl, ?_, ?_, ?_, ?_⟩ <;> decide
  exact ⟨h, by decide, psi_lf_mutual_inverse csaEx h 1 (by decide)⟩

/-! ## `first_row_symbol` (suffix_array_helper.hpp) -/

lemma mono_of_adj (C : List Nat) (sigma : Nat)
    (h : ∀ a, a < sigma → C.getD a 0 ≤ C.getD (a + 1) 0) :
    ∀ a b, a ≤ b → b ≤ sigma → C.getD a 0 ≤ C.getD b 0 := by
  intro a b
  induction b with
  | zero =>
      intro hab hb
      have ha : a = 0 := by omega
      rw [ha]
  | succ m ih =>
      intro hab hb
      rcases Nat.eq_or_lt_of_le hab with he | hl
      · rw [he]
      · exact le_trans (ih (by omega) (by omega)) (h m (by omega))

lemma exists_bucket (C : List Nat) (sigma n i : Nat)
    (hmono : ∀ a b, a ≤ b → b ≤ sigma → C.getD a 0 ≤ C.getD b 0)
    (h0 : C.getD 0 0 = 0) (htop : C.getD sigma 0 = n) (hi : i < n) :
    ∃ k, k < sigma ∧ C.getD k 0 ≤ i ∧ i < C.getD (k + 1) 0 := by
  classical
  set P : Nat → Prop := fun j => C.getD j 0 ≤ i with hP
  have hP0 : P 0 := by
    show C.getD 0 0 ≤ i
    omega
  set k := Nat.findGreatest P sigma with hk
  have hPk : P k := Nat.findGreatest_spec (Nat.zero_le sigma) hP0
  have hkle : k ≤ sigma := Nat.findGreatest_le sigma
  have hklt : k < sigma := by
    rcases Nat.eq_or_lt_of_le hkle with he | hl
    · exfalso
      rw [hP, he, htop] at hPk
      omega
    · exact hl
  refine ⟨k, hklt, hPk, ?_⟩
  by_contra hcon
  push_neg at hcon
  have hPk1 : P (k + 1) := hcon
  exact Nat.findGreatest_is_greatest (Nat.lt_succ_self k) (by omega) hPk1

lemma bucket_unique (C : List Nat) (sigma i : Nat)
    (hmono : ∀ a b, a ≤ b → b ≤ sigma → C.getD a 0 ≤ C.getD b 0) :
    ∀ k k', k < sigma → k' < sigma →
      C.getD k 0 ≤ i → i < C.getD (k + 1) 0 →
      C.getD k' 0 ≤ i → i < C.getD (k' + 1) 0 → k = k' := by
  intro k k' hk hk' h1 h2 h1' h2'
  rcases lt_trichotomy k k' with hlt | heq | hgt
  · exfalso
    have : C.getD (k + 1) 0 ≤ C.getD k' 0 := hmono (k + 1) k' (by omega) (by omega)
    omega
  · exact heq
  · exfalso
    have : C.getD (k' + 1) 0 ≤ C.getD k 0 := hmono (k' + 1) k (by omega) (by omega)
    omega

lemma frsLinGo_spec (C : List Nat) (sigma i : Nat) :
    ∀ fuel res, res ≤ sigma → sigma ≤ fuel + res →
      res ≤ frsLinGo C sigma i fuel res ∧
      frsLinGo C sigma i fuel res ≤ sigma ∧
      (∀ t, res ≤ t → t < frsLinGo C sigma i fuel res → C.getD t 0 ≤ i) ∧
      (frsLinGo C sigma i fuel res = sigma ∨ i < C.getD (frsLinGo C sigma i fuel res) 0) := by
  intro fuel
  induction fuel with
  | zero =>
      intro res hres hfuel
      have he : res = sigma := by omega
      have hval : frsLinGo C sigma i 0 res = res := rfl
      rw [hval]
      refine ⟨le_refl res, by omega, ?_, Or.inl he⟩
      intro t ht1 ht2
      omega
  | succ fuel ih =>
      intro res hres hfuel
      by_cases hguard : res < sigma ∧ C.getD res 0 ≤ i
      · have hval : frsLinGo C sigma i (fuel + 1) res = frsLinGo C sigma i fuel (res + 1) := by
          rw [frsLinGo, if_pos hguard]
        obtain ⟨ha, hb, hc, hd⟩ := ih (res + 1) (by omega) (by omega)
        rw [hval]
        refine ⟨by omega, hb, ?_, hd⟩
        intro t ht1 ht2
        rcases Nat.eq_or_lt_of_le ht1 with he | hl
        · rw [← he]
          exact hguard.2
        · exact hc t (by omega) ht2
      · have hval : frsLinGo C sigma i (fuel + 1) res = res := by
          rw [frsLinGo, if_neg hguard]
        rw [hval]
        refine ⟨le_refl res, hres, ?_, ?_⟩
        · intro t ht1 ht2
          omega
        · rcases Nat.lt_or_ge res sigma with hl | hg
          · right
            by_contra hcon
            push_neg at hcon
            exact hguard ⟨hl, hcon⟩
          · left
            omega

lemma frsBinGo_spec (C : List Nat) (i sigma k : Nat)
    (hmono : ∀ a b, a ≤ b → b ≤ sigma → C.getD a 0 ≤ C.getD b 0)
    (hk : k < sigma) (hkC : C.getD k 0 ≤ i) (hkC2 : i < C.getD (k + 1) 0) :
    ∀ fuel lower upper, lower ≤ k → k < upper → upper ≤ sigma →
      upper - lower ≤ fuel →
      frsBinGo C i fuel lower upper = some k := by
  intro fuel
  induction fuel with
  | zero =>
      intro lower upper h1 h2 h3 h4
      omega
  | succ fuel ih =>
      intro lower upper h1 h2 h3 h4
      set res := (upper + lower) / 2 with hresd
      have hres1 : lower ≤ res := by omega
      have hres2 : res < upper := by omega
      by_cases hc1 : i < C.getD res 0
      · have hkres : k < res := by
          by_contra hcon
          push_neg at hcon
          have : C.getD res 0 ≤ C.getD k 0 := hmono res k hcon (by omega)
          omega
        have hval : frsBinGo C i (fuel + 1) lower upper = frsBinGo C i fuel lower res := by
          rw [frsBinGo, ← hresd, if_pos hc1]
        rw [hval]
        exact ih lower res h1 hkres (by omega) (by omega)
      · by_cases hc2 : C.getD (res + 1) 0 ≤ i
        · have hkres : res + 1 ≤ k := by
            by_contra hcon
            push_neg at hcon
            have : C.getD (k + 1) 0 ≤ C.getD (res + 1) 0 := hmono (k + 1) (res + 1) (by omega) (by omega)
            omega
          have hval : frsBinGo C i (fuel + 1) lower upper = frsBinGo C i fuel (res + 1) upper := by
            rw [frsBinGo, ← hresd, if_neg hc1, if_pos hc2]
          rw [hval]
          exact ih (res + 1) upper hkres (by omega) h3 (by omega)
        · have hval : frsBinGo C i (fuel + 1) lower upper = some res := by
            rw [frsBinGo, ← hresd, if_neg hc1, if_neg hc2]
          have hkres : k = res := by
            apply bucket_unique C sigma i hmono k res hk (by omega) hkC hkC2 (by omega) (by omega)
          rw [hval, hkres]
  

/-- **C4.** For every CSA whose cumulative table `C` is non-decreasing
with `C[0] = 0` and `C[sigma] = size()`, and every `i < size()`,
`first_row_symbol(i, csa)` terminates and returns `comp2char[k]` for the
unique `k` with `C[k] ≤ i < C[k+1]` — both in the linear-scan branch
(`sigma < 16`) and in the binary-search branch. -/
theorem first_row_symbol_correct (csa : CSA) (i : Nat)
    (hadj : ∀ a, a < csa.sigma → csa.C.getD a 0 ≤ csa.C.getD (a + 1) 0)
    (h0 : csa.C.getD 0 0 = 0) (htop : csa.C.getD csa.sigma 0 = csize csa)
    (hi : i < csize csa) :
    ∃ k, k < csa.sigma ∧ csa.C.getD k 0 ≤ i ∧ i < csa.C.getD (k + 1) 0 ∧
      first_row_symbol csa i = some (csa.comp2char.getD k 0) ∧
      ∀ k', k' < csa.sigma → csa.C.getD k' 0 ≤ i → i < csa.C.getD (k' + 1) 0 → k' = k := by
  have hmono := mono_of_adj csa.C csa.sigma hadj
  obtain ⟨k, hk, hkC, hkC2⟩ := exists_bucket csa.C csa.sigma (csize csa) i hmono h0 htop hi
  refine ⟨k, hk, hkC, hkC2, ?_, ?_⟩
  · unfold first_row_symbol
    by_cases hsig : csa.sigma < 16
    · rw [if_pos hsig]
      obtain ⟨ha, hb, hc, hd⟩ := frsLinGo_spec csa.C csa.sigma i csa.sigma 1 (by omega) (by omega)
      set f := frsLinGo csa.C csa.sigma i csa.sigma 1 with hfd
      have hf1 : csa.C.getD (f - 1) 0 ≤ i := by
        rcases Nat.eq_or_lt_of_le ha with he | hl
        · have hf0 : f - 1 = 0 := by omega
          rw [hf0, h0]
          exact Nat.zero_le i
        · exact hc (f - 1) (by omega) (by omega)
      have hf2 : i < csa.C.getD (f - 1 + 1) 0 := by
        have hff : f - 1 + 1 = f := by omega
        rw [hff]
        rcases hd with he | hl
        · rw [he, htop]
          exact hi
        · exact hl
      have hfk : f - 1 = k := by
        apply bucket_unique csa.C csa.sigma i hmono (f - 1) k (by omega) hk hf1 hf2 hkC hkC2
      rw [hfk]
    · rw [if_neg hsig]
      rw [frsBinGo_spec csa.C i csa.sigma k hmono hk hkC hkC2 (csa.sigma + 1) 0 csa.sigma
        (by omega) hk (le_refl _) (by omega)]
      rfl
  · intro k' h1 h2 h3
    exact bucket_unique csa.C csa.sigma i hmono k' k h1 hk h2 h3 hkC hkC2

/-! ## `traverse_csa_saisa::empty` (suffix_array_helper.hpp, C9) -/

/-- **C9** (code bug, evaluation of the code at the failing call): however
many reduction steps are allowed, the `traverse_csa_saisa::empty` body
`m_csa, empty()` never returns — in particular it never produces the host
value `csa_empty` would give (for the example CSA, `false`). -/
theorem saisa_empty_diverges :
    (∀ fuel, saisa_empty_steps fuel = none) ∧ csa_empty csaEx = false := by
  constructor
  · intro fuel
    induction fuel with
    | zero => rfl
    | succ fuel ih => exact ih
  · rfl

/-! ## `store_to_file` overloads (io.hpp, C8)

The observable inputs are whether the output file stream opened and the
global `util::verbose` flag; the embedded value is the returned boolean.
An early `return` is modelled as `some result`, falling through as
`none`. -/

/-- **C8** (code bug, evaluation at the failing input): with
`util::verbose` off (the default), the char-array and `std::string`
overloads return `true` although the stream failed to open — the
`return false` is reachable only when verbose is on — while the generic
overload returns `false` for every open failure and `true` once the
stream opens and the write completes. -/
theorem store_to_file_open_failure :
    store_to_file_char false false = true ∧
      store_to_file_string false false = true ∧
      store_to_file_char true false = false ∧
      store_to_file_string true false = false ∧
      (∀ verbose, store_to_file_generic verbose false = false) ∧
      (∀ verbose opened, opened = true → store_to_file_generic verbose opened = true) := by
  refine ⟨rfl, rfl, rfl, rfl, ?_, ?_⟩
  · intro verbose
    cases verbose <;> rfl
  · intro verbose opened h
    cases verbose <;> rw [h] <;> rfl

/-! ## `vlc_vector` (C7, C10) -/

/-- **C10 counterexample.** For the empty `vlc_vector`, `v == v` returns
`false` and `v != v` returns `true`: the `m_size && v.m_size` truthiness
test rejects any size-0 operand, so equality is not reflexive on empty
vectors. -/
theorem vlcEq_not_reflexive_empty :
    vlcEq vlcEmpty vlcEmpty = false ∧ vlcNe vlcEmpty vlcEmpty = true := by
  exact ⟨rfl, rfl⟩

/-- **C10 (amended).** `vlc_vector`'s equality is reflexive on every
*non-empty* vector: if `v.size ≠ 0` then `v == v` returns `true` and
`v != v` returns `false`; for an empty vector `v == v` is `false`. -/
theorem vlcEq_reflexive_nonempty (v : VlcVector) (h : v.size ≠ 0) :
    vlcEq v v = true ∧ vlcNe v v = false := by
  unfold vlcNe vlcEq
  simp [h]

/-- Witness for the amended C10 at a concrete one-element vector. -/
theorem vlcEq_reflexive_nonempty_witness :
    ({ z := [true], sample_pointer := [0, 0], size := 1 } : VlcVector).size ≠ 0 ∧
      (vlcEq { z := [true], sample_pointer := [0, 0], size := 1 }
          { z := [true], sample_pointer := [0, 0], size := 1 } = true ∧
        vlcNe { z := [true], sample_pointer := [0, 0], size := 1 }
          { z := [true], sample_pointer := [0, 0], size := 1 } = false) := by
  refine ⟨by decide, vlcEq_reflexive_nonempty _ (by decide)⟩

/-- **C7.** The container constructor of `vlc_vector` throws
`std::logic_error` iff some element `x` of `c` has `x + 1 == 0` in 64-bit
arithmetic; the check (phase 1) runs before any element is encoded, so a
failing construction yields no object at all, and for every container free
of such a value construction succeeds with `size() = c.size()`. -/
theorem vlc_constructor_spec (enc : Nat → List Bool) (dens : Nat) (c : List Nat) :
    ((∃ x, x ∈ c ∧ (x + 1) % 2 ^ 64 = 0) →
      vlcOfContainer enc dens c =
        Except.error "vlc_vector cannot decode values smaller than 1!") ∧
    ((∀ x, x ∈ c → (x + 1) % 2 ^ 64 ≠ 0) →
      ∃ v, vlcOfContainer enc dens c = Except.ok v ∧ v.size = c.length) := by
  constructor
  · rintro ⟨x, hx, hbad⟩
    have hne : c ≠ [] := by
      intro he
      rw [he] at hx
      exact absurd hx (List.not_mem_nil x)
    have hany : c.any (fun x => decide ((x + 1) % 2 ^ 64 < 1)) = true := by
      rw [List.any_eq_true]
      refine ⟨x, hx, ?_⟩
      simp only [decide_eq_true_eq]
      omega
    unfold vlcOfContainer
    rw [if_neg hne, if_pos hany]
  · intro hgood
    unfold vlcOfContainer
    by_cases hne : c = []
    · rw [if_pos hne]
      exact ⟨_, rfl, by rw [hne]; rfl⟩
    · rw [if_neg hne]
      have hany : c.any (fun x => decide ((x + 1) % 2 ^ 64 < 1)) = false := by
        rw [List.any_eq_false]
        intro x hx
        have := hgood x hx
        simp
        omega
      rw [hany]
      exact ⟨_, rfl, rfl⟩

/-- Witness for C7: with a one-bit code, `[5]` constructs a size-1 vector,
while a container holding `2^64 - 1` (so `x + 1` wraps to 0) is rejected
by the phase-1 check. -/
theorem vlc_constructor_spec_witness :
    (∃ v, vlcOfContainer (fun x => [true]) 2 [5] = Except.ok v ∧ v.size = [5].length) ∧
      vlcOfContainer (fun x => [true]) 2 [5, 2 ^ 64 - 1] =
        Except.error "vlc_vector cannot decode values smaller than 1!" := by
  constructor
  · exact (vlc_constructor_spec (fun x => [true]) 2 [5]).2 (by decide)
  · exact (vlc_constructor_spec (fun x => [true]) 2 [5, 2 ^ 64 - 1]).1
      ⟨2 ^ 64 - 1, by decide, by decide⟩

/-! ## `rank_bwt` / `select_bwt` (csa_bitcompressed.hpp, C2 and C5) -/

lemma rbGo_inv (psi : Nat → Nat) (i : Nat) :
    ∀ fuel lower upper, lower < upper → upper - lower ≤ fuel →
      lower ≤ rbGo psi i fuel lower upper ∧
      rbGo psi i fuel lower upper < upper ∧
      (rbGo psi i fuel lower upper = lower ∨ psi (rbGo psi i fuel lower upper) < i) ∧
      (rbGo psi i fuel lower upper + 1 = upper ∨ i ≤ psi (rbGo psi i fuel lower upper + 1)) := by
  intro fuel
  induction fuel with
  | zero =>
      intro lower upper h1 h2
      omega
  | succ fuel ih =>
      intro lower upper h1 h2
      by_cases hcond : lower + 1 < upper
      · have hmid1 : lower < (lower + upper) / 2 := by omega
        have hmid2 : (lower + upper) / 2 < upper := by omega
        by_cases hpsi : i ≤ psi ((lower + upper) / 2)
        · have hval : rbGo psi i (fuel + 1) lower upper =
              rbGo psi i fuel lower ((lower + upper) / 2) := by
            rw [rbGo, if_pos hcond, if_pos hpsi]
          rw [hval]
          obtain ⟨a, b, cc, d⟩ := ih lower ((lower + upper) / 2) hmid1 (by omega)
          refine ⟨a, by omega, cc, Or.inr ?_⟩
          rcases d with h | h
          · rw [h]
            exact hpsi
          · exact h
        · have hval : rbGo psi i (fuel + 1) lower upper =
              rbGo psi i fuel ((lower + upper) / 2) upper := by
            rw [rbGo, if_pos hcond, if_neg hpsi]
          rw [hval]
          obtain ⟨a, b, cc, d⟩ := ih ((lower + upper) / 2) upper hmid2 (by omega)
          refine ⟨by omega, b, Or.inr ?_, d⟩
          rcases cc with h | h
          · rw [h]
            omega
          · exact h
      · have hval : rbGo psi i (fuel + 1) lower upper = lower := by
          rw [rbGo, if_neg hcond]
        rw [hval]
        exact ⟨le_refl lower, h1, Or.inl rfl, Or.inl (by omega)⟩

lemma rbCount (psi : Nat → Nat) (i lo hi : Nat) (hlo : lo < hi)
    (hmono : ∀ a b, lo ≤ a → a < b → b < hi → psi a < psi b) :
    (if lo < rbLoop psi i lo hi then rbLoop psi i lo hi - lo + 1
      else if psi (rbLoop psi i lo hi) < i then 1 else 0) =
      ((Finset.Ico lo hi).filter (fun k => psi k < i)).card := by
  have hrb : rbLoop psi i lo hi = rbGo psi i (hi - lo) lo hi := rfl
  rw [hrb]
  obtain ⟨ha, hb, hc, hd⟩ := rbGo_inv psi i (hi - lo) lo hi hlo (le_refl _)
  set lb := rbGo psi i (hi - lo) lo hi with hlbd
  -- any k past lb + 1 has psi k ≥ i
  have hupper : ∀ k, lb + 1 ≤ k → k < hi → i ≤ psi k := by
    intro k hk1 hk2
    rcases hd with h | h
    · omega
    · rcases Nat.eq_or_lt_of_le hk1 with he | hl
      · rw [← he]
        exact h
      · exact le_trans h (le_of_lt (hmono (lb + 1) k (by omega) hl hk2))
  by_cases hgt : lo < lb
  · rw [if_pos hgt]
    have hplb : psi lb < i := by
      rcases hc with h | h
      · omega
      · exact h
    have hset : (Finset.Ico lo hi).filter (fun k => psi k < i) = Finset.Ico lo (lb + 1) := by
      apply Finset.ext
      intro k
      rw [Finset.mem_filter, Finset.mem_Ico, Finset.mem_Ico]
      constructor
      · rintro ⟨⟨hk1, hk2⟩, hpk⟩
        refine ⟨hk1, ?_⟩
        by_contra hcon
        push_neg at hcon
        exact absurd (hupper k (by omega) hk2) (by omega)
      · rintro ⟨hk1, hk2⟩
        refine ⟨⟨hk1, by omega⟩, ?_⟩
        rcases Nat.eq_or_lt_of_le (by omega : k ≤ lb) with he | hl
        · rw [he]
          exact hplb
        · exact lt_trans (hmono k lb hk1 hl hb) hplb
    rw [hset, Nat.card_Ico]
    omega
  · rw [if_neg hgt]
    have hlb : lb = lo := by omega
    by_cases hpsi : psi lb < i
    · rw [if_pos hpsi]
      have hset : (Finset.Ico lo hi).filter (fun k => psi k < i) = Finset.Ico lo (lo + 1) := by
        apply Finset.ext
        intro k
        rw [Finset.mem_filter, Finset.mem_Ico, Finset.mem_Ico]
        constructor
        · rintro ⟨⟨hk1, hk2⟩, hpk⟩
          refine ⟨hk1, ?_⟩
          by_contra hcon
          push_neg at hcon
          exact absurd (hupper k (by omega) hk2) (by omega)
        · rintro ⟨hk1, hk2⟩
          have he : k = lo := by omega
          rw [he]
          refine ⟨⟨le_refl lo, hlo⟩, ?_⟩
          rw [← hlb]
          exact hpsi
      rw [hset, Nat.card_Ico]
      omega
    · rw [if_neg hpsi]
      have hset : (Finset.Ico lo hi).filter (fun k => psi k < i) = ∅ := by
        apply Finset.ext
        intro k
        rw [Finset.mem_filter, Finset.mem_Ico]
        simp only [Finset.not_mem_empty, iff_false]
        rintro ⟨⟨hk1, hk2⟩, hpk⟩
        rcases Nat.eq_or_lt_of_le hk1 with he | hl
        · rw [← he] at hpk
          rw [hlb] at hpsi
          exact hpsi hpk
        · have : psi lo < psi k := hmono lo k (le_refl lo) hl hk2
          rw [hlb] at hpsi
          omega
      rw [hset]
      rfl

lemma psiF_lt_size (csa : CSA) (h : InversePerm csa) (hn : 0 < csize csa) (k : Nat) :
    psiF csa k < csize csa := by
  obtain ⟨-, -, hisa, -, -⟩ := h
  exact hisa _ (Nat.mod_lt _ hn)

lemma getD_mem (l : List Nat) (p : Nat) (hp : p < l.length) : l.getD p 0 ∈ l := by
  rw [List.getD_eq_getElem l 0 hp]
  exact List.getElem_mem hp

lemma correct_size_pos (csa : CSA) (text : List Nat) (hc : Correct csa text) :
    0 < csize csa := by
  obtain ⟨hlen, -, -, -, -, -, hsent, -⟩ := hc
  have : 0 < text.length := List.length_pos_of_mem hsent
  omega

/-- For a correct CSA, `bwt[j]` is a character of the text. -/
lemma bwtF_mem_text (csa : CSA) (text : List Nat) (j : Nat)
    (hc : Correct csa text) : bwtF csa text j ∈ text := by
  have hn : 0 < csize csa := correct_size_pos csa text hc
  obtain ⟨hlen, -⟩ := hc
  have hp : (saF csa j + csize csa - 1) % csize csa < text.length := by
    rw [hlen]
    exact Nat.mod_lt _ hn
  exact getD_mem text _ hp

/-- A character on the non-absent path of `rank_bwt`/`select_bwt` occurs in
the text, its bucket is inside `[0, n)` and non-empty. -/
lemma correct_bucket_setup (csa : CSA) (text : List Nat) (c : Nat)
    (hc : Correct csa text) (hcase : ¬(csa.char2comp c = 0 ∧ c ≠ 0)) :
    c ∈ text ∧ csa.char2comp c < csa.sigma ∧
      csa.C.getD (csa.char2comp c) 0 < csa.C.getD (csa.char2comp c + 1) 0 ∧
      csa.C.getD (csa.char2comp c + 1) 0 ≤ csize csa := by
  obtain ⟨hlen, hperm, hc2c0, hadj, hC0, hCtop, hsent, habs, hcclt, hbucket⟩ := hc
  have hmono := mono_of_adj csa.C csa.sigma hadj
  have hn : 0 < csize csa := by
    have : 0 < text.length := List.length_pos_of_mem hsent
    omega
  have hct : c ∈ text := by
    by_cases hc0 : c = 0
    · rw [hc0]
      exact hsent
    · by_contra hnotin
      exact hcase ⟨habs c hc0 hnotin, hc0⟩
  have hlt : csa.char2comp c < csa.sigma := hcclt c hct
  have hub : csa.C.getD (csa.char2comp c + 1) 0 ≤ csize csa := by
    rw [← hCtop]
    exact hmono (csa.char2comp c + 1) csa.sigma (by omega) (le_refl _)
  refine ⟨hct, hlt, ?_, hub⟩
  obtain ⟨p, hp, hpc⟩ := List.getElem_of_mem hct
  obtain ⟨hilen, hsa, hisa, hinv1, hinv2⟩ := hperm
  have hpn : p < csize csa := by omega
  have hk : isaF csa p < csize csa := hisa p hpn
  have hsk : saF csa (isaF csa p) = p := hinv2 p hpn
  have htk : text.getD (saF csa (isaF csa p)) 0 = c := by
    rw [hsk, List.getD_eq_getElem text 0 hp, hpc]
  have := (hbucket c hct (isaF csa p) hk).mp htk
  omega

/-- The counting core of C2: over a correct CSA, the map `k ↦ psi[k]` is a
bijection from the part of bucket `c` with `psi[k] < i` onto the BWT
positions `j < i` holding `c`. -/
lemma rank_count_bijection (csa : CSA) (text : List Nat) (c i : Nat)
    (hc : Correct csa text) (hct : c ∈ text) (hi : i ≤ csize csa) :
    ((Finset.Ico (csa.C.getD (csa.char2comp c) 0) (csa.C.getD (csa.char2comp c + 1) 0)).filter
        (fun k => psiF csa k < i)).card =
      bwtCount csa text i c := by
  obtain ⟨hlen, hperm, hc2c0, hadj, hC0, hCtop, hsent, habs, hcclt, hbucket⟩ := hc
  have hperm' := hperm
  obtain ⟨hilen, hsa, hisa, hinv1, hinv2⟩ := hperm'
  have hmono := mono_of_adj csa.C csa.sigma hadj
  have hn : 0 < csize csa := by
    have : 0 < text.length := List.length_pos_of_mem hsent
    omega
  have hlt : csa.char2comp c < csa.sigma := hcclt c hct
  have hub : csa.C.getD (csa.char2comp c + 1) 0 ≤ csize csa := by
    rw [← hCtop]
    exact hmono (csa.char2comp c + 1) csa.sigma (by omega) (le_refl _)
  unfold bwtCount
  apply Finset.card_bij (fun k _ => psiF csa k)
  · -- the image of a bucket position with psi < i is a BWT position holding c
    intro k hk
    rw [Finset.mem_filter, Finset.mem_Ico] at hk
    obtain ⟨⟨hk1, hk2⟩, hpk⟩ := hk
    rw [Finset.mem_filter, Finset.mem_range]
    refine ⟨hpk, ?_⟩
    have hkn : k < csize csa := by omega
    have hskn : saF csa k < csize csa := hsa k hkn
    have h1 : (saF csa k + 1) % csize csa < csize csa := Nat.mod_lt _ hn
    have hsapsi : saF csa (psiF csa k) = (saF csa k + 1) % csize csa := hinv2 _ h1
    unfold bwtF
    rw [hsapsi]
    have e1 : (saF csa k + 1) % csize csa + csize csa - 1 =
        (saF csa k + 1) % csize csa + (csize csa - 1) := by omega
    rw [e1, Nat.mod_add_mod]
    have e2 : saF csa k + 1 + (csize csa - 1) = saF csa k + csize csa := by omega
    rw [e2, Nat.add_mod_right, Nat.mod_eq_of_lt hskn]
    exact (hbucket c hct k hkn).mpr ⟨hk1, hk2⟩
  · -- injectivity via lf ∘ psi = id
    intro k1 hk1 k2 hk2 heq
    rw [Finset.mem_filter, Finset.mem_Ico] at hk1 hk2
    have hk1n : k1 < csize csa := by omega
    have hk2n : k2 < csize csa := by omega
    have := congrArg (lfF csa) heq
    rw [lf_psi_eq csa hperm k1 hk1n, lf_psi_eq csa hperm k2 hk2n] at this
    exact this
  · -- surjectivity via lf
    intro j hj
    rw [Finset.mem_filter, Finset.mem_range] at hj
    obtain ⟨hji, hjc⟩ := hj
    have hjn : j < csize csa := by omega
    refine ⟨lfF csa j, ?_, psi_lf_eq csa hperm j hjn⟩
    rw [Finset.mem_filter, Finset.mem_Ico]
    have hlfn : lfF csa j < csize csa := lfF_lt csa hperm j hjn
    have h1 : (saF csa j + csize csa - 1) % csize csa < csize csa := Nat.mod_lt _ hn
    have hsalf : saF csa (lfF csa j) = (saF csa j + csize csa - 1) % csize csa := hinv2 _ h1
    have htext : text.getD (saF csa (lfF csa j)) 0 = c := by
      rw [hsalf]
      exact hjc
    have hbk := (hbucket c hct (lfF csa j) hlfn).mp htext
    refine ⟨⟨hbk.1, hbk.2⟩, ?_⟩
    rw [psi_lf_eq csa hperm j hjn]
    exact hji

/-- On the absent-character path the BWT prefix holds no `c` at all. -/
lemma bwtCount_absent (csa : CSA) (text : List Nat) (c i : Nat)
    (hc : Correct csa text) (hcase : csa.char2comp c = 0 ∧ c ≠ 0) :
    bwtCount csa text i c = 0 := by
  unfold bwtCount
  rw [Finset.card_eq_zero, Finset.filter_eq_empty_iff]
  intro j hj
  intro hbj
  have hct : c ∈ text := hbj ▸ bwtF_mem_text csa text j hc
  obtain ⟨hlen, hperm, hc2c0, hadj, hC0, hCtop, hsent, habs, hcclt, hbucket⟩ := hc
  obtain ⟨hilen, hsa, hisa, hinv1, hinv2⟩ := hperm
  have hn : 0 < csize csa := by
    have : 0 < text.length := List.length_pos_of_mem hsent
    omega
  -- the sentinel 0 and c would share bucket [C[0], C[1]), forcing 0 = c
  obtain ⟨p, hp, hpc⟩ := List.getElem_of_mem hsent
  have hpn : p < csize csa := by omega
  have hk : isaF csa p < csize csa := hisa p hpn
  have htk0 : text.getD (saF csa (isaF csa p)) 0 = 0 := by
    rw [hinv2 p hpn, List.getD_eq_getElem text 0 hp, hpc]
  have hin0 := (hbucket 0 hsent (isaF csa p) hk).mp htk0
  rw [hc2c0] at hin0
  have hinc : text.getD (saF csa (isaF csa p)) 0 = c := by
    apply (hbucket c hct (isaF csa p) hk).mpr
    rw [hcase.1]
    exact hin0
  rw [htk0] at hinc
  exact hcase.2 hinc.symm

/-- **C2 (amended).** For a `csa_bitcompressed` whose SA/ISA are mutually
inverse permutations, whose alphabet tables are correctly built from the
text, and whose suffix array sorts the suffixes (so that Ψ is strictly
increasing on each character bucket), `rank_bwt(i, c)` equals the number
of positions `j < i` with `BWT[j] = c` for every `i ≤ size()` — in
particular it is 0 when `c` does not occur in the text. -/
theorem rank_bwt_correct (csa : CSA) (text : List Nat) (c i : Nat)
    (hc : Correct csa text) (hmono : PsiMonoOnBuckets csa) (hi : i ≤ csize csa) :
    rank_bwt csa i c = bwtCount csa text i c := by
  by_cases hcase : csa.char2comp c = 0 ∧ c ≠ 0
  · unfold rank_bwt
    rw [if_pos hcase, bwtCount_absent csa text c i hc hcase]
  · obtain ⟨hct, hcclt, hlohi, hub⟩ := correct_bucket_setup csa text c hc hcase
    have hmono' := hmono (csa.char2comp c) hcclt
    unfold rank_bwt
    rw [if_neg hcase]
    rw [rbCount (psiF csa) i (csa.C.getD (csa.char2comp c) 0)
      (csa.C.getD (csa.char2comp c + 1) 0) hlohi hmono']
    exact rank_count_bijection csa text c i hc hct hi

lemma correct_csaEx : Correct csaEx textEx := by
  refine ⟨rfl, by unfold InversePerm; decide, rfl, by decide, rfl, rfl, by decide, ?_, by decide, by decide⟩
  intro c hne hnotin
  have hne1 : c ≠ 1 := by
    intro he
    rw [he] at hnotin
    exact hnotin (by decide)
  show (if c = 1 then 1 else 0) = 0
  rw [if_neg hne1]

lemma correct_csaBad : Correct csaBad textEx := by
  refine ⟨rfl, by unfold InversePerm; decide, rfl, by decide, rfl, rfl, by decide, ?_, by decide, by decide⟩
  intro c hne hnotin
  have hne1 : c ≠ 1 := by
    intro he
    rw [he] at hnotin
    exact hnotin (by decide)
  show (if c = 1 then 1 else 0) = 0
  rw [if_neg hne1]

lemma psiMono_csaEx : PsiMonoOnBuckets csaEx := by
  intro j hj a b h1 h2 h3
  have hsig : csaEx.sigma = 2 := rfl
  rw [hsig] at hj
  interval_cases j
  · have hb1 : csaEx.C.getD (0 + 1) 0 = 1 := rfl
    rw [hb1] at h3
    omega
  · have hb1 : csaEx.C.getD 1 0 = 1 := rfl
    have hb2 : csaEx.C.getD (1 + 1) 0 = 3 := rfl
    rw [hb1] at h1
    rw [hb2] at h3
    have ha1 : a = 1 := by omega
    have hb2' : b = 2 := by omega
    rw [ha1, hb2']
    decide

/-- **C2 counterexample.** `csaBad` satisfies every hypothesis of the
claim as stated — its SA/ISA are mutually inverse permutations of `[0,3)`
and its alphabet tables are correctly built from the text `[1,1,0]` — yet
`rank_bwt(1, 1)` returns 2 while the BWT prefix `[0,1)` holds exactly one
`1` (the suffix array `[2,0,1]` is not sorted, so the binary search over
Ψ miscounts). -/
theorem rank_bwt_counterexample :
    Correct csaBad textEx ∧ 1 ≤ csize csaBad ∧
      rank_bwt csaBad 1 1 = 2 ∧ bwtCount csaBad textEx 1 1 = 1 :=
  ⟨correct_csaBad, by decide, by decide, by decide⟩

/-- Witness for the amended C2 at `csaEx` (sorted SA), `c = 1`, `i = 2`. -/
theorem rank_bwt_correct_witness :
    Correct csaEx textEx ∧ PsiMonoOnBuckets csaEx ∧ 2 ≤ csize csaEx ∧
      rank_bwt csaEx 2 1 = bwtCount csaEx textEx 2 1 ∧ rank_bwt csaEx 2 1 = 2 :=
  ⟨correct_csaEx, psiMono_csaEx, by decide,
    rank_bwt_correct csaEx textEx 1 2 correct_csaEx psiMono_csaEx (by decide), by decide⟩

/-- Over the full prefix `[0, size())`, `rank_bwt` counts character `c`'s
whole bucket. -/
lemma rank_bwt_full (csa : CSA) (text : List Nat) (c : Nat)
    (hc : Correct csa text) (hmono : PsiMonoOnBuckets csa)
    (hcase : ¬(csa.char2comp c = 0 ∧ c ≠ 0)) :
    rank_bwt csa (csize csa) c =
      csa.C.getD (csa.char2comp c + 1) 0 - csa.C.getD (csa.char2comp c) 0 := by
  obtain ⟨hct, hcclt, hlohi, hub⟩ := correct_bucket_setup csa text c hc hcase
  have hn : 0 < csize csa := correct_size_pos csa text hc
  have hperm : InversePerm csa := hc.2.1
  have hmono' := hmono (csa.char2comp c) hcclt
  unfold rank_bwt
  rw [if_neg hcase]
  rw [rbCount (psiF csa) (csize csa) (csa.C.getD (csa.char2comp c) 0)
    (csa.C.getD (csa.char2comp c + 1) 0) hlohi hmono']
  have hall : (Finset.Ico (csa.C.getD (csa.char2comp c) 0)
      (csa.C.getD (csa.char2comp c + 1) 0)).filter (fun k => psiF csa k < csize csa) =
      Finset.Ico (csa.C.getD (csa.char2comp c) 0) (csa.C.getD (csa.char2comp c + 1) 0) := by
    apply Finset.filter_true_of_mem
    intro k _
    exact psiF_lt_size csa hperm hn k
  rw [hall, Nat.card_Ico]

/-- **C5 (amended).** For a `csa_bitcompressed` whose SA/ISA are mutually
inverse permutations, whose alphabet tables are correctly built from the
text, whose suffix array sorts the suffixes (Ψ strictly increasing on each
bucket) and whose size fits 63 bits, for every character `c` and every
`i` in `[1, rank_bwt(size(), c)]` (not from 0: at `i = 0` the index
`C[cc] + i - 1` underflows in 64-bit arithmetic):
`rank_bwt(select_bwt(i, c) + 1, c) = i` and `select_bwt(i, c) < size()`. -/
theorem select_bwt_rank_inverse (csa : CSA) (text : List Nat) (c i : Nat)
    (hc : Correct csa text) (hmono : PsiMonoOnBuckets csa)
    (hsmall : csize csa < 2 ^ 63)
    (h1 : 1 ≤ i) (h2 : i ≤ rank_bwt csa (csize csa) c) :
    rank_bwt csa (select_bwt csa i c + 1) c = i ∧ select_bwt csa i c < csize csa := by
  by_cases hcase : csa.char2comp c = 0 ∧ c ≠ 0
  · exfalso
    have hz : rank_bwt csa (csize csa) c = 0 := by
      unfold rank_bwt
      rw [if_pos hcase]
    omega
  · obtain ⟨hct, hcclt, hlohi, hub⟩ := correct_bucket_setup csa text c hc hcase
    have hn : 0 < csize csa := correct_size_pos csa text hc
    have hperm : InversePerm csa := hc.2.1
    have hmono' := hmono (csa.char2comp c) hcclt
    have hfull := rank_bwt_full csa text c hc hmono hcase
    have hin : i ≤ csa.C.getD (csa.char2comp c + 1) 0 - csa.C.getD (csa.char2comp c) 0 := by
      omega
    have hlon : csa.C.getD (csa.char2comp c) 0 ≤ csize csa := le_trans (le_of_lt hlohi) hub
    -- the wrapping 64-bit index expression reduces to lo + i - 1
    have hidxeq : (csa.C.getD (csa.char2comp c) 0 + i + (2 ^ 64 - 1)) % 2 ^ 64 =
        csa.C.getD (csa.char2comp c) 0 + i - 1 := by
      have e1 : csa.C.getD (csa.char2comp c) 0 + i + (2 ^ 64 - 1) =
          (csa.C.getD (csa.char2comp c) 0 + i - 1) + 2 ^ 64 := by omega
      rw [e1, Nat.add_mod_right, Nat.mod_eq_of_lt]
      have h63 : (2 : Nat) ^ 64 = 2 ^ 63 * 2 := by norm_num
      omega
    have hidxlt : csa.C.getD (csa.char2comp c) 0 + i - 1 <
        csa.C.getD (csa.char2comp c + 1) 0 := by omega
    have hsel : select_bwt csa i c = psiF csa (csa.C.getD (csa.char2comp c) 0 + i - 1) := by
      unfold select_bwt
      rw [if_neg hcase, hidxeq, if_pos hidxlt]
    constructor
    · rw [hsel]
      unfold rank_bwt
      rw [if_neg hcase]
      rw [rbCount (psiF csa) (psiF csa (csa.C.getD (csa.char2comp c) 0 + i - 1) + 1)
        (csa.C.getD (csa.char2comp c) 0) (csa.C.getD (csa.char2comp c + 1) 0) hlohi hmono']
      have hset : (Finset.Ico (csa.C.getD (csa.char2comp c) 0)
          (csa.C.getD (csa.char2comp c + 1) 0)).filter
            (fun k => psiF csa k < psiF csa (csa.C.getD (csa.char2comp c) 0 + i - 1) + 1) =
          Finset.Ico (csa.C.getD (csa.char2comp c) 0)
            (csa.C.getD (csa.char2comp c) 0 + i) := by
        apply Finset.ext
        intro k
        rw [Finset.mem_filter, Finset.mem_Ico, Finset.mem_Ico]
        constructor
        · rintro ⟨⟨hk1, hk2⟩, hpk⟩
          refine ⟨hk1, ?_⟩
          by_contra hcon
          push_neg at hcon
          have hlt2 : psiF csa (csa.C.getD (csa.char2comp c) 0 + i - 1) < psiF csa k := by
            apply hmono' (csa.C.getD (csa.char2comp c) 0 + i - 1) k (by omega) (by omega) hk2
          omega
        · rintro ⟨hk1, hk2⟩
          refine ⟨⟨hk1, by omega⟩, ?_⟩
          rcases Nat.eq_or_lt_of_le (by omega : k ≤ csa.C.getD (csa.char2comp c) 0 + i - 1)
            with he | hl
          · rw [he]
            omega
          · have := hmono' k (csa.C.getD (csa.char2comp c) 0 + i - 1) hk1 hl (by omega)
            omega
      rw [hset, Nat.card_Ico]
      omega
    · rw [hsel]
      exact psiF_lt_size csa hperm hn _

/-- **C5 counterexample.** Both failures of the claim as stated: (a) at the
fully correct, sorted `csaEx` the claimed range `[0, rank(size,c)]` fails
at `i = 0` — the 64-bit index expression underflows into the bucket and
`rank_bwt(select_bwt(0,1)+1, 1) = 2 ≠ 0`; (b) at `csaBad`, which also
satisfies every stated hypothesis, even `i = 1` fails:
`rank_bwt(select_bwt(1,1)+1, 1) = 2 ≠ 1`. -/
theorem select_bwt_counterexample :
    (Correct csaEx textEx ∧ PsiMonoOnBuckets csaEx ∧
      0 ≤ rank_bwt csaEx (csize csaEx) 1 ∧
      rank_bwt csaEx (select_bwt csaEx 0 1 + 1) 1 = 2) ∧
    (Correct csaBad textEx ∧
      1 ≤ rank_bwt csaBad (csize csaBad) 1 ∧
      rank_bwt csaBad (select_bwt csaBad 1 1 + 1) 1 = 2) :=
  ⟨⟨correct_csaEx, psiMono_csaEx, by decide, by decide⟩,
    ⟨correct_csaBad, by decide, by decide⟩⟩

/-- Witness for the amended C5 at `csaEx`, `c = 1`, `i = 2`. -/
theorem select_bwt_rank_inverse_witness :
    Correct csaEx textEx ∧ PsiMonoOnBuckets csaEx ∧ csize csaEx < 2 ^ 63 ∧
      1 ≤ 2 ∧ 2 ≤ rank_bwt csaEx (csize csaEx) 1 ∧
      (rank_bwt csaEx (select_bwt csaEx 2 1 + 1) 1 = 2 ∧ select_bwt csaEx 2 1 < csize csaEx) :=
  ⟨correct_csaEx, psiMono_csaEx, by decide, by decide, by decide,
    select_bwt_rank_inverse csaEx textEx 1 2 correct_csaEx psiMono_csaEx (by decide)
      (by decide) (by decide)⟩

/-- Witness for C4 in both branches: the linear scan on `csaEx`
(`sigma = 2 < 16`, `i = 2`, bucket `k = 1`) and the binary search on
`csaWide` (`sigma = 16`, `i = 5`, bucket `k = 5`). -/
theorem first_row_symbol_correct_witness :
    (∃ k, k < csaEx.sigma ∧ csaEx.C.getD k 0 ≤ 2 ∧ 2 < csaEx.C.getD (k + 1) 0 ∧
        first_row_symbol csaEx 2 = some (csaEx.comp2char.getD k 0) ∧
        ∀ k', k' < csaEx.sigma → csaEx.C.getD k' 0 ≤ 2 → 2 < csaEx.C.getD (k' + 1) 0 → k' = k) ∧
      (∃ k, k < csaWide.sigma ∧ csaWide.C.getD k 0 ≤ 5 ∧ 5 < csaWide.C.getD (k + 1) 0 ∧
        first_row_symbol csaWide 5 = some (csaWide.comp2char.getD k 0) ∧
        ∀ k', k' < csaWide.sigma → csaWide.C.getD k' 0 ≤ 5 → 5 < csaWide.C.getD (k' + 1) 0 → k' = k) ∧
      first_row_symbol csaEx 2 = some 1 ∧ first_row_symbol csaWide 5 = some 5 :=
  ⟨first_row_symbol_correct csaEx 2 (by decide) rfl rfl (by decide),
    first_row_symbol_correct csaWide 5 (by decide) rfl rfl (by decide),
    by decide, by decide⟩
